import Mathlib

/-!
Verification of the iterator-utilities library: a lookahead buffer over a
forward-only iterator (src/buffer.rs) and an equivalence-class grouping
iterator over a slice (src/equivalence_class.rs).

The iterator source is modelled as the list of its remaining elements,
instrumented with a flag recording whether it has already returned None and
a counter of next-calls made after that first None (both are ghost state
used only to state temporal properties; they do not influence behaviour).
-/

/-- Model of the underlying iterator: the list of elements it has yet to
yield, plus ghost instrumentation. -/
structure Source (α : Type) where
  remaining : List α
  noneReturned : Bool
  callsAfterNone : Nat
deriving Repr, DecidableEq

/-- One call to Iterator::next: yields the head of the remaining stream, or
none when exhausted. The ghost fields record exhaustion and count calls made
after exhaustion was first signalled. -/
def Source.next {α : Type} (s : Source α) : Option α × Source α :=
  match s.remaining with
  | [] =>
    (none,
     { s with
       noneReturned := true
       callsAfterNone := s.callsAfterNone + (if s.noneReturned then 1 else 0) })
  | x :: xs => (some x, { s with remaining := xs })

/-- The IteratorBuffer struct of src/buffer.rs: the owned iterator, the two
monotone flags, the capacity field named size (window size + 1), and the
window vector. -/
structure IteratorBuffer (α : Type) where
  iterator : Source α
  opening : Bool
  closing : Bool
  size : Nat
  buffer : List α
deriving Repr, DecidableEq

namespace IteratorBuffer

variable {α : Type}

/-- fn fill: while not closing and the window is below capacity, pull the
next element from the iterator and push it to the back of the window; when
the iterator yields None, set closing (the loop condition then fails). -/
def fill (s : IteratorBuffer α) : IteratorBuffer α :=
  if h : s.closing = false ∧ s.buffer.length < s.size then
    match s.iterator.next with
    | (some x, it) => fill { s with iterator := it, buffer := s.buffer ++ [x] }
    | (none, it) => fill { s with iterator := it, closing := true }
  else s
termination_by (if s.closing then 0 else 1) + (s.size - s.buffer.length)
decreasing_by
  · obtain ⟨h1, h2⟩ := h
    simp [h1, List.length_append]
    omega
  · obtain ⟨h1, h2⟩ := h
    simp [h1]

/-- fn new: build the buffer with size = requested window size + 1, opening
set, closing unset, an empty window, and an eager fill before returning. -/
def new (l : List α) (w : Nat) : IteratorBuffer α :=
  fill { iterator := { remaining := l, noneReturned := false, callsAfterNone := 0 },
         opening := true,
         closing := false,
         size := w + 1,
         buffer := [] }

/-- fn is_opening. -/
def is_opening (s : IteratorBuffer α) : Bool := s.opening

/-- fn is_closing. -/
def is_closing (s : IteratorBuffer α) : Bool := s.closing

/-- fn len: the current window length. -/
def len (s : IteratorBuffer α) : Nat := s.buffer.length

/-- fn pop: clear opening, fill, and if the window is empty return None;
otherwise remove and return the front element, filling again afterwards. -/
def pop (s : IteratorBuffer α) : Option α × IteratorBuffer α :=
  let t := fill { s with opening := false }
  match t.buffer with
  | [] => (none, t)
  | x :: rest => (some x, fill { t with buffer := rest })

/-- The removal loop of fn replace: remove the front element n times.
Vec::remove(0) on an empty vector panics; the panic is modelled as an error
carrying the state at the moment of the panic. -/
def removeFront (n : Nat) (s : IteratorBuffer α) :
    Except (IteratorBuffer α) (IteratorBuffer α) :=
  match n with
  | 0 => .ok s
  | m + 1 =>
    match s.buffer with
    | [] => .error s
    | _ :: rest => removeFront m { s with buffer := rest }

/-- The insertion loop of fn replace: for i in 0..replacement.len(), insert
replacement[i] at window position i. -/
def insertLoop (repl : List α) (i : Nat) (s : IteratorBuffer α) : IteratorBuffer α :=
  if h : i < repl.length then
    insertLoop repl (i + 1) { s with buffer := s.buffer.insertIdx i (repl.get ⟨i, h⟩) }
  else s
termination_by repl.length - i

/-- fn replace: remove len elements from the front of the window, then
insert the replacement elements at the front. If the removal loop panics
(len exceeds the window length), the insertion loop never runs. -/
def replace (n : Nat) (repl : List α) (s : IteratorBuffer α) :
    Except (IteratorBuffer α) (IteratorBuffer α) :=
  match removeFront n s with
  | .error t => .error t
  | .ok t => .ok (insertLoop repl 0 t)

/-- The IndexMut write path: index_mut first fills, then hands out a mutable
reference to buffer[index]; a caller assignment through it stores x there.
Claims only exercise in-bounds writes (out of bounds panics in Rust). -/
def writeAt (i : Nat) (x : α) (s : IteratorBuffer α) : IteratorBuffer α :=
  let t := fill s
  { t with buffer := t.buffer.set i x }

/-- The slice starts_with used by fn starts_with, element-wise from the
front (Rust slice::starts_with). -/
def listStartsWith [DecidableEq α] : List α → List α → Bool
  | _, [] => true
  | [], _ :: _ => false
  | x :: xs, y :: ys => x = y && listStartsWith xs ys

/-- The slice ends_with used by fn ends_with: the needle must be no longer
than the slice and equal its trailing segment (Rust slice::ends_with). -/
def listEndsWith [DecidableEq α] (l pat : List α) : Bool :=
  pat.length ≤ l.length && decide (l.drop (l.length - pat.length) = pat)

/-- fn starts_with: true when opening still holds, the pattern is no longer
than the window, and the window starts with the pattern. -/
def starts_with [DecidableEq α] (s : IteratorBuffer α) (pat : List α) : Bool :=
  if s.opening = true ∧ pat.length ≤ s.buffer.length then
    listStartsWith s.buffer pat
  else
    false

/-- fn ends_with: true when closing holds, the pattern length equals the
window length, and the window ends with the pattern. -/
def ends_with [DecidableEq α] (s : IteratorBuffer α) (pat : List α) : Bool :=
  if s.closing = true ∧ pat.length = s.buffer.length then
    listEndsWith s.buffer pat
  else
    false

/-! Rewriting lemmas for the fill loop. -/

theorem fill_step_some {s : IteratorBuffer α} {x : α} {it : Source α}
    (hcond : s.closing = false ∧ s.buffer.length < s.size)
    (hnext : s.iterator.next = (some x, it)) :
    fill s = fill { s with iterator := it, buffer := s.buffer ++ [x] } := by
  rw [fill, dif_pos hcond, hnext]

theorem fill_step_none {s : IteratorBuffer α} {it : Source α}
    (hcond : s.closing = false ∧ s.buffer.length < s.size)
    (hnext : s.iterator.next = (none, it)) :
    fill s = fill { s with iterator := it, closing := true } := by
  rw [fill, dif_pos hcond, hnext]

theorem fill_stop {s : IteratorBuffer α}
    (hcond : ¬(s.closing = false ∧ s.buffer.length < s.size)) :
    fill s = s := by
  rw [fill, dif_neg hcond]

theorem fill_closed {s : IteratorBuffer α} (h : s.closing = true) : fill s = s :=
  fill_stop (by simp [h])

/-- fill does not change the size field. -/
theorem fill_size (s : IteratorBuffer α) : (fill s).size = s.size := by
  induction s using fill.induct with
  | case1 x hcond y it hnext ih => rw [fill_step_some hcond hnext]; simpa using ih
  | case2 x hcond it hnext ih => rw [fill_step_none hcond hnext]; simpa using ih
  | case3 x hcond => rw [fill_stop hcond]

/-- fill does not change the opening flag. -/
theorem fill_opening (s : IteratorBuffer α) : (fill s).opening = s.opening := by
  induction s using fill.induct with
  | case1 x hcond y it hnext ih => rw [fill_step_some hcond hnext]; simpa using ih
  | case2 x hcond it hnext ih => rw [fill_step_none hcond hnext]; simpa using ih
  | case3 x hcond => rw [fill_stop hcond]

/-- fill moves elements from the front of the remaining stream to the back
of the window: the concatenation window ++ remaining is unchanged. -/
theorem fill_app (s : IteratorBuffer α) :
    (fill s).buffer ++ (fill s).iterator.remaining = s.buffer ++ s.iterator.remaining := by
  induction s using fill.induct with
  | case1 x hcond y it hnext ih =>
      rw [fill_step_some hcond hnext]
      have hrem : x.iterator.remaining = y :: it.remaining := by
        unfold Source.next at hnext
        cases hx : x.iterator.remaining with
        | nil => rw [hx] at hnext; simp at hnext
        | cons a l => rw [hx] at hnext; simp at hnext; simp [hnext.1, ← hnext.2, hx]
      simp only at ih
      rw [ih, hrem]
      simp
  | case2 x hcond it hnext ih =>
      rw [fill_step_none hcond hnext]
      have hrem : it.remaining = x.iterator.remaining := by
        unfold Source.next at hnext
        cases hx : x.iterator.remaining with
        | nil => rw [hx] at hnext; simp at hnext; simp [← hnext, hx]
        | cons a l => rw [hx] at hnext; simp at hnext
      simp only at ih
      rw [ih, hrem]
  | case3 x hcond => rw [fill_stop hcond]

/-- When fill has set (or found) closing, the remaining stream is empty,
provided that was already true if closing was set beforehand. -/
theorem fill_closing_remaining (s : IteratorBuffer α)
    (h : s.closing = true → s.iterator.remaining = []) :
    (fill s).closing = true → (fill s).iterator.remaining = [] := by
  induction s using fill.induct with
  | case1 x hcond y it hnext ih =>
      rw [fill_step_some hcond hnext]
      refine ih ?_
      intro hc
      simp at hc
      exact absurd hcond.1 (by simp [hc])
  | case2 x hcond it hnext ih =>
      rw [fill_step_none hcond hnext]
      refine ih ?_
      intro _
      unfold Source.next at hnext
      cases hx : x.iterator.remaining with
      | nil => rw [hx] at hnext; simp at hnext; simp [← hnext]
      | cons a l => rw [hx] at hnext; simp at hnext
  | case3 x hcond => rw [fill_stop hcond]; exact h

/-- When fill returns, either closing is set or the window has reached
capacity: the loop condition fails at the result. -/
theorem fill_fixpoint (s : IteratorBuffer α) :
    (fill s).closing = true ∨ (fill s).size ≤ (fill s).buffer.length := by
  induction s using fill.induct with
  | case1 x hcond y it hnext ih => rw [fill_step_some hcond hnext]; exact ih
  | case2 x hcond it hnext ih => rw [fill_step_none hcond hnext]; exact ih
  | case3 x hcond =>
      rw [fill_stop hcond]
      rcases Decidable.em (x.closing = true) with hc | hc
      · exact Or.inl hc
      · right
        have : ¬(x.buffer.length < x.size) := by
          intro hlt
          exact hcond ⟨by simpa using hc, hlt⟩
        omega

/-- fill never shrinks the window. -/
theorem fill_length_ge (s : IteratorBuffer α) :
    s.buffer.length ≤ (fill s).buffer.length := by
  induction s using fill.induct with
  | case1 x hcond y it hnext ih =>
      rw [fill_step_some hcond hnext]
      simp only at ih
      simp at ih
      omega
  | case2 x hcond it hnext ih => rw [fill_step_none hcond hnext]; simpa using ih
  | case3 x hcond => rw [fill_stop hcond]

/-- fill never grows the window beyond capacity, as long as it did not
start above capacity. -/
theorem fill_length_le (s : IteratorBuffer α) (h : s.buffer.length ≤ s.size) :
    (fill s).buffer.length ≤ s.size := by
  induction s using fill.induct with
  | case1 x hcond y it hnext ih =>
      rw [fill_step_some hcond hnext]
      simp only at ih
      exact ih (by simp; omega)
  | case2 x hcond it hnext ih =>
      rw [fill_step_none hcond hnext]
      simp only at ih
      exact ih (by simpa using h)
  | case3 x hcond => rw [fill_stop hcond]; exact h

/-- Length form of fill_app: the total number of elements in window plus
remaining stream is preserved by fill. -/
theorem fill_sum (s : IteratorBuffer α) :
    (fill s).buffer.length + (fill s).iterator.remaining.length
      = s.buffer.length + s.iterator.remaining.length := by
  have h := congrArg List.length (fill_app s)
  simpa using h

/-- When the source still holds enough elements, fill tops the window up to
exactly capacity and does not set closing. -/
theorem fill_exact (s : IteratorBuffer α) (h0 : s.closing = false)
    (h1 : s.buffer.length ≤ s.size)
    (h2 : s.size ≤ s.buffer.length + s.iterator.remaining.length) :
    (fill s).buffer.length = s.size ∧ (fill s).closing = false := by
  induction s using fill.induct with
  | case1 x hcond y it hnext ih =>
      rw [fill_step_some hcond hnext]
      have hrem : x.iterator.remaining = y :: it.remaining := by
        unfold Source.next at hnext
        cases hx : x.iterator.remaining with
        | nil => rw [hx] at hnext; simp at hnext
        | cons a l => rw [hx] at hnext; simp at hnext; simp [hnext.1, ← hnext.2, hx]
      simp only at ih
      have := ih h0 (by simp; omega) (by simp [hrem] at h2 ⊢; omega)
      simpa using this
  | case2 x hcond it hnext ih =>
      exfalso
      have hrem : x.iterator.remaining = [] := by
        unfold Source.next at hnext
        cases hx : x.iterator.remaining with
        | nil => rfl
        | cons a l => rw [hx] at hnext; simp at hnext
      rw [hrem] at h2
      simp at h2
      omega
  | case3 x hcond =>
      rw [fill_stop hcond]
      refine ⟨?_, h0⟩
      have : ¬(x.buffer.length < x.size) := fun hlt => hcond ⟨h0, hlt⟩
      omega

/-- The ghost invariant: closing mirrors the source's exhaustion flag, and
the source is never queried after its first None. fill preserves it, since
its loop is guarded by the closing flag. -/
theorem fill_ghost (s : IteratorBuffer α)
    (h1 : s.closing = s.iterator.noneReturned)
    (h2 : s.iterator.callsAfterNone = 0) :
    (fill s).closing = (fill s).iterator.noneReturned
      ∧ (fill s).iterator.callsAfterNone = 0 := by
  induction s using fill.induct with
  | case1 x hcond y it hnext ih =>
      rw [fill_step_some hcond hnext]
      have hit : it.noneReturned = x.iterator.noneReturned
          ∧ it.callsAfterNone = x.iterator.callsAfterNone := by
        unfold Source.next at hnext
        cases hx : x.iterator.remaining with
        | nil => rw [hx] at hnext; simp at hnext
        | cons a l => rw [hx] at hnext; simp at hnext; simp [← hnext.2]
      simp only at ih
      exact ih (by simp [hit.1, ← h1]) (by simp [hit.2, h2])
  | case2 x hcond it hnext ih =>
      rw [fill_step_none hcond hnext]
      have hnr : x.iterator.noneReturned = false := by rw [← h1]; exact hcond.1
      have hit : it.noneReturned = true ∧ it.callsAfterNone = 0 := by
        unfold Source.next at hnext
        cases hx : x.iterator.remaining with
        | nil =>
            rw [hx] at hnext
            simp at hnext
            simp [← hnext, hnr, h2]
        | cons a l => rw [hx] at hnext; simp at hnext
      simp only at ih
      exact ih (by simp [hit.1]) (by simp [hit.2])
  | case3 x hcond => rw [fill_stop hcond]; exact ⟨h1, h2⟩

/-- Each successful pop consumes exactly one element from the combined
window-plus-stream contents. -/
theorem pop_some_sum {s t : IteratorBuffer α} {x : α}
    (h : pop s = (some x, t)) :
    t.iterator.remaining.length + t.buffer.length + 1
      = s.iterator.remaining.length + s.buffer.length := by
  unfold pop at h
  dsimp only at h
  cases hb : (fill { s with opening := false }).buffer with
  | nil => rw [hb] at h; simp at h
  | cons a rest =>
      rw [hb] at h
      simp at h
      obtain ⟨hax, ht⟩ := h
      have h1 := fill_sum { (fill { s with opening := false }) with buffer := rest }
      have h2 := fill_sum { s with opening := false }
      simp only at h1 h2
      rw [ht] at h1
      have hlen : (fill { s with opening := false }).buffer.length = rest.length + 1 := by
        rw [hb]; simp
      simp only [hlen] at h2
      omega

/-- Pop repeatedly until None, collecting the yielded elements in order. -/
def drain (s : IteratorBuffer α) : List α :=
  match h : pop s with
  | (none, _) => []
  | (some x, t) => x :: drain t
termination_by s.iterator.remaining.length + s.buffer.length
decreasing_by
  have := pop_some_sum h
  omega

theorem drain_none {s u : IteratorBuffer α} (h : pop s = (none, u)) :
    drain s = [] := by
  rw [drain.eq_def]
  split
  · rfl
  · rename_i x t heq
    rw [h] at heq
    simp at heq

theorem drain_some {s t : IteratorBuffer α} {x : α} (h : pop s = (some x, t)) :
    drain s = x :: drain t := by
  rw [drain.eq_def]
  split
  · rename_i u heq
    rw [h] at heq
    simp at heq
  · rename_i y u heq
    rw [h] at heq
    simp at heq
    rw [heq.1, heq.2]

/-- Draining a buffer by repeated pops yields exactly the current window
followed by the rest of the stream, for any state with positive capacity
whose closing flag truthfully reports stream exhaustion. -/
theorem drain_app (s : IteratorBuffer α) :
    1 ≤ s.size → (s.closing = true → s.iterator.remaining = []) →
    drain s = s.buffer ++ s.iterator.remaining := by
  induction s using drain.induct with
  | case1 x u h =>
      intro hsz hcr
      unfold pop at h
      dsimp only at h
      cases hb : (fill { x with opening := false }).buffer with
      | cons a rest => rw [hb] at h; simp at h
      | nil =>
          rw [hb] at h
          simp at h
          have hclos : (fill { x with opening := false }).closing = true := by
            rcases fill_fixpoint { x with opening := false } with hc | hc
            · exact hc
            · rw [fill_size, hb] at hc
              simp at hc
              omega
          have hrem : (fill { x with opening := false }).iterator.remaining = [] := by
            refine fill_closing_remaining { x with opening := false } ?_ hclos
            intro hc
            exact hcr hc
          have happ := fill_app { x with opening := false }
          rw [hb, hrem] at happ
          simp at happ
          have hpop : pop x = (none, u) := by
            unfold pop
            dsimp only
            rw [hb]
            simp [h]
          rw [drain_none hpop]
          simp [happ.1, happ.2]
  | case2 x a t h ih =>
      intro hsz hcr
      rw [drain_some h]
      unfold pop at h
      dsimp only at h
      cases hb : (fill { x with opening := false }).buffer with
      | nil => rw [hb] at h; simp at h
      | cons b rest =>
          rw [hb] at h
          simp at h
          obtain ⟨hax, ht⟩ := h
          have hucr : (fill { x with opening := false }).closing = true →
              (fill { x with opening := false }).iterator.remaining = [] := by
            refine fill_closing_remaining { x with opening := false } ?_
            intro hc
            exact hcr hc
          have hdt : drain t = t.buffer ++ t.iterator.remaining := by
            refine ih ?_ ?_
            · rw [← ht, fill_size]
              show 1 ≤ (fill { x with opening := false }).size
              rw [fill_size]
              exact hsz
            · rw [← ht]
              refine fill_closing_remaining _ ?_
              intro hc
              exact hucr hc
          have happ1 := fill_app { (fill { x with opening := false }) with buffer := rest }
          rw [ht] at happ1
          have happ2 := fill_app { x with opening := false }
          rw [hb] at happ2
          simp only at happ1 happ2
          rw [hdt, happ1, hax] at *
          simp at happ2 ⊢
          rw [← happ2]

/-! Structural lemmas about pop, replace and writeAt. -/

/-- pop does not change the size field. -/
theorem pop_size (s : IteratorBuffer α) : ((pop s).2).size = s.size := by
  unfold pop
  dsimp only
  cases hb : (fill { s with opening := false }).buffer with
  | nil =>
      simp only [hb]
      rw [show (fill { s with opening := false }).size = s.size from fill_size _]
  | cons a rest =>
      simp only [hb]
      rw [fill_size]
      show (fill { s with opening := false }).size = s.size
      rw [fill_size]

/-- pop leaves the opening flag false. -/
theorem pop_opening (s : IteratorBuffer α) : ((pop s).2).opening = false := by
  unfold pop
  dsimp only
  cases hb : (fill { s with opening := false }).buffer with
  | nil =>
      simp only [hb]
      rw [show (fill { s with opening := false }).opening = false from fill_opening _]
  | cons a rest =>
      simp only [hb]
      rw [fill_opening]
      show (fill { s with opening := false }).opening = false
      rw [fill_opening]

/-- pop keeps the window within capacity. -/
theorem pop_length (s : IteratorBuffer α) (h : s.buffer.length ≤ s.size) :
    ((pop s).2).buffer.length ≤ s.size := by
  unfold pop
  dsimp only
  have hu : (fill { s with opening := false }).buffer.length ≤ s.size :=
    fill_length_le { s with opening := false } h
  cases hb : (fill { s with opening := false }).buffer with
  | nil => simp [hb]
  | cons a rest =>
      simp only [hb]
      have hrest : rest.length ≤ ({ (fill { s with opening := false }) with
          buffer := rest } : IteratorBuffer α).size := by
        show rest.length ≤ (fill { s with opening := false }).size
        rw [fill_size]
        show rest.length ≤ s.size
        rw [hb] at hu
        simp at hu
        omega
      have h2 := fill_length_le { (fill { s with opening := false }) with buffer := rest } hrest
      calc (fill { (fill { s with opening := false }) with buffer := rest }).buffer.length
          ≤ ({ (fill { s with opening := false }) with buffer := rest } :
              IteratorBuffer α).size := h2
        _ = (fill { s with opening := false }).size := rfl
        _ = s.size := by rw [fill_size]

/-- pop preserves the ghost invariant. -/
theorem pop_ghost (s : IteratorBuffer α)
    (h1 : s.closing = s.iterator.noneReturned)
    (h2 : s.iterator.callsAfterNone = 0) :
    ((pop s).2).closing = ((pop s).2).iterator.noneReturned
      ∧ ((pop s).2).iterator.callsAfterNone = 0 := by
  unfold pop
  dsimp only
  have hg : (fill { s with opening := false }).closing
        = (fill { s with opening := false }).iterator.noneReturned
      ∧ (fill { s with opening := false }).iterator.callsAfterNone = 0 :=
    fill_ghost { s with opening := false } h1 h2
  cases hb : (fill { s with opening := false }).buffer with
  | nil => simp only [hb]; exact hg
  | cons a rest =>
      simp only [hb]
      exact fill_ghost { (fill { s with opening := false }) with buffer := rest } hg.1 hg.2

/-- Successful removal: when n is at most the window length, the removal
loop drops the first n window elements and changes nothing else. -/
theorem removeFront_ok (n : Nat) (s : IteratorBuffer α) (h : n ≤ s.buffer.length) :
    removeFront n s = .ok { s with buffer := s.buffer.drop n } := by
  induction n generalizing s with
  | zero => simp [removeFront]
  | succ m ih =>
      cases hb : s.buffer with
      | nil => rw [hb] at h; simp at h
      | cons a rest =>
          rw [removeFront]
          simp only [hb]
          rw [ih { s with buffer := rest }
            (by rw [hb] at h; simpa using Nat.le_of_succ_le_succ h)]
          simp

/-- Panicking removal: when n exceeds the window length, the removal loop
drains the whole window and then panics on the empty vector. -/
theorem removeFront_panic (n : Nat) (s : IteratorBuffer α) (h : s.buffer.length < n) :
    removeFront n s = .error { s with buffer := [] } := by
  induction n generalizing s with
  | zero => simp at h
  | succ m ih =>
      cases hb : s.buffer with
      | nil => rw [removeFront, hb]; simp [← hb]
      | cons a rest =>
          rw [removeFront, hb]
          exact ih { s with buffer := rest } (by rw [hb] at h; simpa using Nat.lt_of_succ_lt_succ h)

/-- Inserting at the position right after a known front segment splices the
element between the segment and the rest. -/
theorem insertIdx_at_length (pre : List α) (x : α) (B : List α) :
    (pre ++ B).insertIdx pre.length x = pre ++ x :: B := by
  induction pre with
  | nil => simp
  | cons a l ih => simpa [List.insertIdx_succ_cons] using ih

/-- The insertion loop of replace, started at position i with the first i
replacement elements already inserted, ends with the whole replacement in
front of the rest of the window. -/
theorem insertLoop_app (repl : List α) (i : Nat) (s : IteratorBuffer α) :
    ∀ B, s.buffer = repl.take i ++ B →
      insertLoop repl i s = { s with buffer := repl ++ B } := by
  suffices H : ∀ n i (s : IteratorBuffer α), repl.length - i ≤ n →
      ∀ B, s.buffer = repl.take i ++ B →
        insertLoop repl i s = { s with buffer := repl ++ B } from
    fun B hB => H (repl.length - i) i s le_rfl B hB
  intro n
  induction n with
  | zero =>
      intro i s hn B hB
      rw [insertLoop, dif_neg (by omega)]
      rw [List.take_of_length_le (by omega)] at hB
      rw [← hB]
  | succ m ih =>
      intro i s hn B hB
      by_cases h : i < repl.length
      · rw [insertLoop, dif_pos h]
        have hpre : (repl.take i).length = i := by
          simp [List.length_take]
          omega
        have hbuf : (s.buffer.insertIdx i (repl.get ⟨i, h⟩)) = repl.take (i + 1) ++ B := by
          rw [hB]
          have hins := insertIdx_at_length (repl.take i) (repl.get ⟨i, h⟩) B
          rw [hpre] at hins
          rw [hins]
          have htake1 : List.take (i + 1) repl = List.take i repl ++ [repl[i]] := by
            rw [List.take_succ, List.getElem?_eq_getElem h]
            rfl
          rw [htake1, List.append_assoc]
          rfl
        exact ih (i + 1) { s with buffer := s.buffer.insertIdx i (repl.get ⟨i, h⟩) }
          (by omega) B hbuf
      · rw [insertLoop, dif_neg h]
        rw [List.take_of_length_le (by omega)] at hB
        rw [← hB]

/-- fn replace on a valid remove count: the result drops n elements from
the front of the window and puts the replacement before the remainder; the
iterator, both flags, and the size field are untouched. -/
theorem replace_ok (n : Nat) (repl : List α) (s : IteratorBuffer α)
    (h : n ≤ s.buffer.length) :
    replace n repl s = .ok { s with buffer := repl ++ s.buffer.drop n } := by
  unfold replace
  rw [removeFront_ok n s h]
  show Except.ok (insertLoop repl 0 { s with buffer := s.buffer.drop n }) = _
  rw [insertLoop_app repl 0 { s with buffer := s.buffer.drop n } (s.buffer.drop n) (by simp)]

/-- fn replace on an invalid remove count: the removal loop panics after
draining the entire window; the insertion loop never runs. -/
theorem replace_panic (n : Nat) (repl : List α) (s : IteratorBuffer α)
    (h : s.buffer.length < n) :
    replace n repl s = .error { s with buffer := [] } := by
  unfold replace
  rw [removeFront_panic n s h]

/-- Extract the carried state from either outcome of replace. -/
def unwrap (e : Except (IteratorBuffer α) (IteratorBuffer α)) : IteratorBuffer α :=
  match e with
  | .ok t => t
  | .error t => t

/-- States reachable from construction through the public mutating
operations: pop, an in-bounds write through IndexMut, and a successful
replace. -/
inductive Reachable : IteratorBuffer α → Prop
  | new (l : List α) (w : Nat) : Reachable (new l w)
  | pop {s : IteratorBuffer α} : Reachable s → Reachable ((IteratorBuffer.pop s).2)
  | write {s : IteratorBuffer α} (i : Nat) (x : α) :
      Reachable s → i < (fill s).buffer.length → Reachable (writeAt i x s)
  | repl {s t : IteratorBuffer α} (n : Nat) (r : List α) :
      Reachable s → replace n r s = .ok t → Reachable t

/-- States reachable from construction through pop and in-bounds writes
only, with no replace interleaved. -/
inductive ReachableNoReplace : IteratorBuffer α → Prop
  | new (l : List α) (w : Nat) : ReachableNoReplace (new l w)
  | pop {s : IteratorBuffer α} :
      ReachableNoReplace s → ReachableNoReplace ((IteratorBuffer.pop s).2)
  | write {s : IteratorBuffer α} (i : Nat) (x : α) :
      ReachableNoReplace s → i < (fill s).buffer.length →
      ReachableNoReplace (writeAt i x s)

/-- A successful replace leaves every field but the window untouched: in
particular it pulls nothing from the source and does not refill. -/
theorem replace_ok_fields {s t : IteratorBuffer α} {n : Nat} {r : List α}
    (h : replace n r s = .ok t) :
    t.iterator = s.iterator ∧ t.closing = s.closing ∧ t.opening = s.opening
      ∧ t.size = s.size := by
  rcases le_or_lt n s.buffer.length with hle | hlt
  · rw [replace_ok n r s hle] at h
    injection h with h
    rw [← h]
    exact ⟨rfl, rfl, rfl, rfl⟩
  · rw [replace_panic n r s hlt] at h
    cases h

/-- A panicking replace also leaves every field but the window untouched at
the moment of the panic. -/
theorem replace_error_fields {s t : IteratorBuffer α} {n : Nat} {r : List α}
    (h : replace n r s = .error t) :
    t.iterator = s.iterator ∧ t.closing = s.closing ∧ t.opening = s.opening
      ∧ t.size = s.size := by
  rcases le_or_lt n s.buffer.length with hle | hlt
  · rw [replace_ok n r s hle] at h
    cases h
  · rw [replace_panic n r s hlt] at h
    injection h with h
    rw [← h]
    exact ⟨rfl, rfl, rfl, rfl⟩

/-- Every reachable state keeps the ghost invariant: closing mirrors the
source's exhaustion flag and the source was never queried after its first
None. -/
theorem reachable_ghost {s : IteratorBuffer α} (h : Reachable s) :
    s.closing = s.iterator.noneReturned ∧ s.iterator.callsAfterNone = 0 := by
  induction h with
  | new l w => exact fill_ghost _ rfl rfl
  | pop hr ih => exact pop_ghost _ ih.1 ih.2
  | write i x hr hi ih =>
      rename_i s0
      unfold writeAt
      dsimp only
      exact fill_ghost s0 ih.1 ih.2
  | repl n r hr heq ih =>
      have hf := replace_ok_fields heq
      rw [hf.1, hf.2.1]
      exact ih

/-- Every state reachable without replace keeps its window within
capacity. -/
theorem reachableNoReplace_length {s : IteratorBuffer α}
    (h : ReachableNoReplace s) : s.buffer.length ≤ s.size := by
  induction h with
  | new l w =>
      show (fill _).buffer.length ≤ (fill _).size
      rw [fill_size]
      exact fill_length_le _ (by simp)
  | pop hr ih =>
      rename_i s0
      rw [pop_size]
      exact pop_length s0 ih
  | write i x hr hi ih =>
      rename_i s0
      unfold writeAt
      dsimp only
      have h1 := fill_length_le s0 ih
      rw [show (fill s0).size = s0.size from fill_size s0] at *
      simpa using h1

end IteratorBuffer

/-!
The equivalence-class iterator of src/equivalence_class.rs. The iterator
state is the slice (vect), the predicate (pred) and the cursor (last);
EqClIter::next is modelled as a function of those. The scan loop below is
the while loop of next; collecting the yielded sub-slices uses a fuel bound
because a non-reflexive predicate would make the Rust iterator yield empty
slices forever.
-/

/-- The while loop of EqClIter::next: starting at i, advance while the
element at i is equivalent to the first element of the run. -/
def eqcScan {α : Type} (v : List α) (p : α → α → Bool) (first : α) (i : Nat) : Nat :=
  if h : i < v.length then
    if p first (v.get ⟨i, h⟩) then eqcScan v p first (i + 1) else i
  else i
termination_by v.length - i

/-- EqClIter::next: None when the cursor passed the end; otherwise scan the
maximal run starting at the cursor, yield that sub-slice, and move the
cursor to its end. -/
def eqcNext {α : Type} (v : List α) (p : α → α → Bool) (last : Nat) :
    Option (List α × Nat) :=
  if h : v.length ≤ last then none
  else
    let i := eqcScan v p (v.get ⟨last, by omega⟩) last
    some ((v.drop last).take (i - last), i)

/-- Repeatedly call EqClIter::next, collecting the yielded sub-slices, with
a fuel bound on the number of calls. -/
def eqcCollect {α : Type} (fuel : Nat) (v : List α) (p : α → α → Bool)
    (last : Nat) : List (List α) :=
  match fuel with
  | 0 => []
  | f + 1 =>
    match eqcNext v p last with
    | none => []
    | some (run, nxt) => run :: eqcCollect f v p nxt

/-- fn equivalence_classes: iterate over the maximal runs of adjacent
equivalent elements, starting with the cursor at 0. The fuel length + 1
covers every possible number of yielded runs for any predicate that is
reflexive on the slice. -/
def equivalence_classes {α : Type} (v : List α) (p : α → α → Bool) :
    List (List α) :=
  eqcCollect (v.length + 1) v p 0

/-- The scan cursor never moves backwards. -/
theorem eqcScan_ge {α : Type} (v : List α) (p : α → α → Bool) (first : α) :
    ∀ i, i ≤ eqcScan v p first i := by
  suffices H : ∀ n i, v.length - i ≤ n → i ≤ eqcScan v p first i from
    fun i => H (v.length - i) i le_rfl
  intro n
  induction n with
  | zero =>
      intro i hn
      rw [eqcScan]
      by_cases h : i < v.length
      · omega
      · rw [dif_neg h]
  | succ m ih =>
      intro i hn
      rw [eqcScan]
      by_cases h : i < v.length
      · rw [dif_pos h]
        by_cases hp : p first (v.get ⟨i, h⟩) = true
        · rw [if_pos hp]
          have := ih (i + 1) (by omega)
          omega
        · rw [if_neg hp]
      · rw [dif_neg h]

/-- The scan never passes the end of the slice, starting in bounds. -/
theorem eqcScan_le {α : Type} (v : List α) (p : α → α → Bool) (first : α) :
    ∀ i, i ≤ v.length → eqcScan v p first i ≤ v.length := by
  suffices H : ∀ n i, v.length - i ≤ n → i ≤ v.length →
      eqcScan v p first i ≤ v.length from
    fun i h => H (v.length - i) i le_rfl h
  intro n
  induction n with
  | zero =>
      intro i hn hi
      rw [eqcScan]
      by_cases h : i < v.length
      · omega
      · rw [dif_neg h]; omega
  | succ m ih =>
      intro i hn hi
      rw [eqcScan]
      by_cases h : i < v.length
      · rw [dif_pos h]
        by_cases hp : p first (v.get ⟨i, h⟩) = true
        · rw [if_pos hp]
          exact ih (i + 1) (by omega) (by omega)
        · rw [if_neg hp]; omega
      · rw [dif_neg h]; omega

/-- Every element strictly before the scan's stopping point, from its start
on, is equivalent to the run's first element. -/
theorem eqcScan_all {α : Type} (v : List α) (p : α → α → Bool) (first : α) :
    ∀ i j (hj : j < v.length), i ≤ j → j < eqcScan v p first i →
      p first (v.get ⟨j, hj⟩) = true := by
  suffices H : ∀ n i, v.length - i ≤ n → ∀ j (hj : j < v.length), i ≤ j →
      j < eqcScan v p first i → p first (v.get ⟨j, hj⟩) = true from
    fun i j hj hij hlt => H (v.length - i) i le_rfl j hj hij hlt
  intro n
  induction n with
  | zero =>
      intro i hn j hj hij hlt
      rw [eqcScan] at hlt
      by_cases h : i < v.length
      · omega
      · rw [dif_neg h] at hlt; omega
  | succ m ih =>
      intro i hn j hj hij hlt
      rw [eqcScan] at hlt
      by_cases h : i < v.length
      · rw [dif_pos h] at hlt
        by_cases hp : p first (v.get ⟨i, h⟩) = true
        · rw [if_pos hp] at hlt
          rcases Nat.eq_or_lt_of_le hij with heq | hgt
          · subst heq; exact hp
          · exact ih (i + 1) (by omega) j hj (by omega) hlt
        · rw [if_neg hp] at hlt; omega
      · rw [dif_neg h] at hlt; omega

/-- Indexing at provably equal positions gives equal elements. -/
theorem get_congr {α : Type} (v : List α) {a b : Nat}
    (ha : a < v.length) (hb : b < v.length) (hab : a = b) :
    v.get ⟨a, ha⟩ = v.get ⟨b, hb⟩ := by
  subst hab
  rfl

/-- At the scan's stopping point, if still inside the slice, the element
there is not equivalent to the run's first element: the run is maximal. -/
theorem eqcScan_stop {α : Type} (v : List α) (p : α → α → Bool) (first : α) :
    ∀ i (hs : eqcScan v p first i < v.length),
      i ≤ v.length → p first (v.get ⟨eqcScan v p first i, hs⟩) = false := by
  suffices H : ∀ n i, v.length - i ≤ n → ∀ hs : eqcScan v p first i < v.length,
      i ≤ v.length → p first (v.get ⟨eqcScan v p first i, hs⟩) = false from
    fun i hs hi => H (v.length - i) i le_rfl hs hi
  intro n
  induction n with
  | zero =>
      intro i hn hs hi
      by_cases h : i < v.length
      · omega
      · exfalso
        rw [eqcScan, dif_neg h] at hs
        omega
  | succ m ih =>
      intro i hn hs hi
      by_cases h : i < v.length
      · by_cases hp : p first (v.get ⟨i, h⟩) = true
        · have hunf : eqcScan v p first i = eqcScan v p first (i + 1) := by
            rw [eqcScan, dif_pos h, if_pos hp]
          have hs2 : eqcScan v p first (i + 1) < v.length := by omega
          rw [get_congr v hs hs2 hunf]
          exact ih (i + 1) (by omega) hs2 (by omega)
        · have hunf : eqcScan v p first i = i := by
            rw [eqcScan, dif_pos h, if_neg hp]
          rw [get_congr v hs h hunf]
          simpa using hp
      · exfalso
        rw [eqcScan, dif_neg h] at hs
        omega

/-- When the element at the scan's start is equivalent to the first run
element, the scan advances at least one position. -/
theorem eqcScan_progress {α : Type} (v : List α) (p : α → α → Bool) (first : α)
    (i : Nat) (h : i < v.length) (hp : p first (v.get ⟨i, h⟩) = true) :
    i + 1 ≤ eqcScan v p first i := by
  rw [eqcScan, dif_pos h, if_pos hp]
  exact eqcScan_ge v p first (i + 1)

theorem eqcNext_none {α : Type} (v : List α) (p : α → α → Bool) (last : Nat)
    (h : v.length ≤ last) : eqcNext v p last = none := by
  rw [eqcNext, dif_pos h]

theorem eqcNext_some {α : Type} (v : List α) (p : α → α → Bool) (last : Nat)
    (h : last < v.length) :
    eqcNext v p last
      = some ((v.drop last).take (eqcScan v p (v.get ⟨last, h⟩) last - last),
              eqcScan v p (v.get ⟨last, h⟩) last) := by
  rw [eqcNext, dif_neg (by omega)]

/-- For a predicate reflexive on the slice's elements, collecting with
enough fuel yields non-empty runs whose concatenation is the rest of the
slice from the cursor on. -/
theorem eqcCollect_partition {α : Type} (v : List α) (p : α → α → Bool)
    (href : ∀ x ∈ v, p x x = true) :
    ∀ fuel last, v.length - last ≤ fuel →
      (eqcCollect fuel v p last).flatten = v.drop last
        ∧ ∀ r ∈ eqcCollect fuel v p last, r ≠ [] := by
  intro fuel
  induction fuel with
  | zero =>
      intro last h
      constructor
      · show ([] : List (List α)).flatten = _
        simp [List.drop_eq_nil_of_le (by omega : v.length ≤ last)]
      · intro r hr
        simp [eqcCollect] at hr
  | succ f ih =>
      intro last h
      by_cases hlast : v.length ≤ last
      · have hcol : eqcCollect (f + 1) v p last = [] := by
          rw [eqcCollect, eqcNext_none v p last hlast]
        rw [hcol]
        constructor
        · simp [List.drop_eq_nil_of_le hlast]
        · intro r hr
          simp at hr
      · have hl : last < v.length := by omega
        have hcol : eqcCollect (f + 1) v p last
            = ((v.drop last).take (eqcScan v p (v.get ⟨last, hl⟩) last - last))
              :: eqcCollect f v p (eqcScan v p (v.get ⟨last, hl⟩) last) := by
          rw [eqcCollect, eqcNext_some v p last hl]
        rw [hcol]
        have hge : last + 1 ≤ eqcScan v p (v.get ⟨last, hl⟩) last :=
          eqcScan_progress v p (v.get ⟨last, hl⟩) last hl
            (href _ (List.get_mem v last hl))
        have hle2 : eqcScan v p (v.get ⟨last, hl⟩) last ≤ v.length :=
          eqcScan_le v p (v.get ⟨last, hl⟩) last (by omega)
        have hrec := ih (eqcScan v p (v.get ⟨last, hl⟩) last) (by omega)
        constructor
        · rw [List.flatten_cons, hrec.1]
          have hdd : (v.drop last).drop (eqcScan v p (v.get ⟨last, hl⟩) last - last)
              = v.drop (eqcScan v p (v.get ⟨last, hl⟩) last) := by
            rw [List.drop_drop]
            congr 1
            omega
          rw [← hdd, List.take_append_drop]
        · intro r hr
          rcases List.mem_cons.mp hr with hr | hr
          · have hlen : 0 < r.length := by
              rw [hr, List.length_take, List.length_drop]
              omega
            exact List.length_pos.mp hlen
          · exact hrec.2 r hr

namespace IteratorBuffer

/-- Rust slice::starts_with holds exactly when the needle is no longer than
the slice and equals its leading segment. -/
theorem listStartsWith_iff [DecidableEq α] :
    ∀ (l pat : List α), listStartsWith l pat = true ↔
      pat.length ≤ l.length ∧ l.take pat.length = pat := by
  intro l pat
  induction pat generalizing l with
  | nil => simp [listStartsWith]
  | cons y ys ih =>
      cases l with
      | nil => simp [listStartsWith]
      | cons x xs =>
          simp [listStartsWith, ih xs, Nat.succ_le_succ_iff]
          tauto

/-- Rust slice::ends_with at equal lengths is plain equality. -/
theorem listEndsWith_eq_length [DecidableEq α] (l pat : List α)
    (h : pat.length = l.length) : listEndsWith l pat = true ↔ l = pat := by
  unfold listEndsWith
  rw [h]
  simp

end IteratorBuffer

/-!
The claims, stated over the embedding above.
-/

namespace IteratorBuffer

/-- The buffer state built by fn new just before its eager fill. -/
def initState {α : Type} (l : List α) (w : Nat) : IteratorBuffer α :=
  { iterator := { remaining := l, noneReturned := false, callsAfterNone := 0 },
    opening := true,
    closing := false,
    size := w + 1,
    buffer := [] }

theorem new_eq_fill_initState {α : Type} (l : List α) (w : Nat) :
    new l w = fill (initState l w) := rfl

/-- Claim C1: for every finite source, with no replace or index-write
interleaved, calling pop repeatedly until it returns None yields exactly
the source's elements in source order, with no omissions or duplications,
and the number of popped values equals the source's element count. -/
theorem pop_until_none_yields_source_in_order {α : Type} (l : List α) (w : Nat) :
    drain (new l w) = l ∧ (drain (new l w)).length = l.length := by
  have h1 : drain (new l w) = l := by
    rw [new_eq_fill_initState]
    have hsz : 1 ≤ (fill (initState l w)).size := by
      rw [fill_size]
      show 1 ≤ w + 1
      omega
    have hcr : (fill (initState l w)).closing = true →
        (fill (initState l w)).iterator.remaining = [] := by
      refine fill_closing_remaining _ ?_
      intro hc
      simp [initState] at hc
    rw [drain_app _ hsz hcr, fill_app]
    simp [initState]
  exact ⟨h1, by rw [h1]⟩

/-- Claim C2, counterexample: the capacity invariant does not survive
replace. From the freshly constructed buffer over [0,1,2,3] with window
size 2 (capacity 3), the reachable state after replace(0, [9,9]) has a
window of length 5, strictly above capacity. -/
theorem replace_breaks_capacity_invariant_cex :
    Reachable (unwrap (replace 0 [9, 9] (new ([0, 1, 2, 3] : List Nat) 2)))
    ∧ (unwrap (replace 0 [9, 9] (new ([0, 1, 2, 3] : List Nat) 2))).size
        < (unwrap (replace 0 [9, 9] (new ([0, 1, 2, 3] : List Nat) 2))).buffer.length := by
  have hnew : new ([0, 1, 2, 3] : List Nat) 2
      = { iterator := { remaining := [3], noneReturned := false, callsAfterNone := 0 },
          opening := true, closing := false, size := 3, buffer := [0, 1, 2] } := by
    simp [new, fill, Source.next]
  have hrep : replace 0 [9, 9] (new ([0, 1, 2, 3] : List Nat) 2)
      = .ok { iterator := { remaining := [3], noneReturned := false, callsAfterNone := 0 },
              opening := true, closing := false, size := 3, buffer := [9, 9, 0, 1, 2] } := by
    rw [hnew]
    exact replace_ok 0 [9, 9] _ (by decide)
  constructor
  · rw [hrep]
    exact Reachable.repl 0 [9, 9] (Reachable.new [0, 1, 2, 3] 2) hrep
  · rw [hrep]
    decide

/-- Claim C2 (amended): in every state reachable from construction through
pop and in-bounds mutable index-writes, with no replace interleaved, the
window length stays within capacity. -/
theorem window_le_capacity_without_replace {α : Type} (s : IteratorBuffer α)
    (h : ReachableNoReplace s) : s.buffer.length ≤ s.size :=
  reachableNoReplace_length h

theorem window_le_capacity_without_replace_witness :
    (new ([0, 1] : List Nat) 1).buffer.length ≤ (new ([0, 1] : List Nat) 1).size :=
  window_le_capacity_without_replace _ (ReachableNoReplace.new [0, 1] 1)

/-- Claim C3: for remove_count at most the window length, replace removes
that many elements from the front of the window and inserts the
replacement, in order, at the front ahead of what remained; the iterator,
both flags and the capacity are untouched (no source pull, no refill), and
the window length changes by exactly replacement length minus remove count,
with no capacity clamping. -/
theorem replace_splices_front {α : Type} (s : IteratorBuffer α) (n : Nat)
    (repl : List α) (h : n ≤ s.buffer.length) :
    replace n repl s = .ok { s with buffer := repl ++ s.buffer.drop n }
    ∧ (repl ++ s.buffer.drop n).length + n = s.buffer.length + repl.length := by
  refine ⟨replace_ok n repl s h, ?_⟩
  rw [List.length_append, List.length_drop]
  omega

theorem replace_splices_front_witness :
    replace 1 [5]
        ({ iterator := { remaining := [], noneReturned := false, callsAfterNone := 0 },
           opening := true, closing := true, size := 1, buffer := [7, 8] } :
          IteratorBuffer Nat)
      = .ok { iterator := { remaining := [], noneReturned := false, callsAfterNone := 0 },
              opening := true, closing := true, size := 1, buffer := [5, 8] } :=
  (replace_splices_front _ 1 [5] (by decide)).1

/-- Claim C4, counterexample: replace with remove_count above the window
length does not signal the error with the buffer unchanged. On the buffer
built over [0,1] with window size 0 (window [0]), replace(2, []) panics
(modelled as the error outcome) with the window already emptied: the state
carried at the moment of the error differs from the pre-call state. -/
theorem replace_invalid_count_not_atomic_cex :
    replace 2 ([] : List Nat) (new [0, 1] 0)
      = .error { iterator := { remaining := [1], noneReturned := false, callsAfterNone := 0 },
                 opening := true, closing := false, size := 1, buffer := [] }
    ∧ (new ([0, 1] : List Nat) 0).buffer = [0]
    ∧ ({ iterator := { remaining := [1], noneReturned := false, callsAfterNone := 0 },
         opening := true, closing := false, size := 1, buffer := [] } : IteratorBuffer Nat)
        ≠ new ([0, 1] : List Nat) 0 := by
  have hnew : new ([0, 1] : List Nat) 0
      = { iterator := { remaining := [1], noneReturned := false, callsAfterNone := 0 },
          opening := true, closing := false, size := 1, buffer := [0] } := by
    simp [new, fill, Source.next]
  refine ⟨?_, by rw [hnew], ?_⟩
  · rw [hnew]
    exact replace_panic 2 [] _ (by decide)
  · rw [hnew]
    decide

/-- Claim C4 (amended): when replace is called with remove_count greater
than the current window length, the removal loop panics (the model's error
outcome, matching the index-out-of-bounds panic of removing from an empty
vector) rather than signaling a clean precondition error, and the
operation is a partial state transition: at the moment of the panic every
window element has been removed, no replacement has been inserted, and all
other fields are unchanged. -/
theorem replace_invalid_count_panics_after_drain {α : Type}
    (s : IteratorBuffer α) (n : Nat) (repl : List α)
    (h : s.buffer.length < n) :
    replace n repl s = .error { s with buffer := [] } :=
  replace_panic n repl s h

theorem replace_invalid_count_panics_after_drain_witness :
    replace 2 ([] : List Nat)
        ({ iterator := { remaining := [], noneReturned := false, callsAfterNone := 0 },
           opening := true, closing := true, size := 1, buffer := [7] } :
          IteratorBuffer Nat)
      = .error { iterator := { remaining := [], noneReturned := false, callsAfterNone := 0 },
                 opening := true, closing := true, size := 1, buffer := [] } :=
  replace_invalid_count_panics_after_drain _ 2 [] (by decide)

/-- Claim C5: construction with window size w builds a buffer of capacity
w + 1 and fills it eagerly: immediately after construction the window
length is at most w + 1, and if the source yields at least w + 1 elements
the window length is exactly w + 1 and closing is false. -/
theorem new_eager_fill_capacity {α : Type} (l : List α) (w : Nat) :
    (new l w).size = w + 1
    ∧ (new l w).buffer.length ≤ w + 1
    ∧ (w + 1 ≤ l.length →
        (new l w).buffer.length = w + 1 ∧ (new l w).closing = false) := by
  refine ⟨?_, ?_, ?_⟩
  · rw [new_eq_fill_initState, fill_size]
    rfl
  · rw [new_eq_fill_initState]
    have h := fill_length_le (initState l w) (by simp [initState])
    simpa [initState] using h
  · intro hl
    rw [new_eq_fill_initState]
    have h := fill_exact (initState l w) rfl (by simp [initState])
      (by simp [initState]; omega)
    exact ⟨by simpa [initState] using h.1, h.2⟩

theorem new_eager_fill_capacity_witness :
    (new ([0, 1, 2] : List Nat) 2).buffer.length = 3
    ∧ (new ([0, 1, 2] : List Nat) 2).closing = false :=
  (new_eager_fill_capacity [0, 1, 2] 2).2.2 (by decide)

/-- Claim C6: starts_with is true exactly when opening still holds (no pop
has ever occurred), the pattern is no longer than the window, and the
leading elements of the window equal the pattern element-wise; moreover pop
always leaves opening false, so after the first pop starts_with is false
regardless of window contents. -/
theorem starts_with_characterization {α : Type} [DecidableEq α]
    (s : IteratorBuffer α) (pat : List α) :
    (starts_with s pat = true
      ↔ s.opening = true ∧ pat.length ≤ s.buffer.length
          ∧ s.buffer.take pat.length = pat)
    ∧ ((pop s).2).opening = false := by
  refine ⟨?_, pop_opening s⟩
  unfold starts_with
  by_cases h : s.opening = true ∧ pat.length ≤ s.buffer.length
  · rw [if_pos h, listStartsWith_iff]
    constructor
    · rintro ⟨h1, h2⟩
      exact ⟨h.1, h1, h2⟩
    · rintro ⟨_, h2, h3⟩
      exact ⟨h2, h3⟩
  · rw [if_neg h]
    constructor
    · intro hc
      simp at hc
    · rintro ⟨h1, h2, _⟩
      exact absurd ⟨h1, h2⟩ h

/-- Claim C7: ends_with is true exactly when closing holds (the source has
signaled exhaustion), the pattern length equals the window length exactly,
and the window equals the pattern; in every other case it is false without
error. -/
theorem ends_with_characterization {α : Type} [DecidableEq α]
    (s : IteratorBuffer α) (pat : List α) :
    ends_with s pat = true
      ↔ s.closing = true ∧ pat.length = s.buffer.length ∧ s.buffer = pat := by
  unfold ends_with
  by_cases h : s.closing = true ∧ pat.length = s.buffer.length
  · rw [if_pos h, listEndsWith_eq_length s.buffer pat h.2]
    constructor
    · intro he
      exact ⟨h.1, h.2, he⟩
    · rintro ⟨_, _, he⟩
      exact he
  · rw [if_neg h]
    constructor
    · intro hc
      simp at hc
    · rintro ⟨h1, h2, _⟩
      exact absurd ⟨h1, h2⟩ h

/-- Claim C9: the source is never queried again once it has returned None:
in every reachable state the ghost counter of next-calls made after the
first None is zero, and closing mirrors the source's exhaustion flag (set
inside refill on the first None, guarding every later pull attempt). -/
theorem source_never_queried_after_exhaustion {α : Type}
    (s : IteratorBuffer α) (h : Reachable s) :
    s.iterator.callsAfterNone = 0 ∧ s.closing = s.iterator.noneReturned := by
  have hg := reachable_ghost h
  exact ⟨hg.2, hg.1⟩

theorem source_never_queried_after_exhaustion_witness :
    (new ([] : List Nat) 0).iterator.callsAfterNone = 0
    ∧ (new ([] : List Nat) 0).closing = (new ([] : List Nat) 0).iterator.noneReturned :=
  source_never_queried_after_exhaustion _ (Reachable.new [] 0)

end IteratorBuffer

/-- Claim C8: every item yielded by the equivalence-class iterator is a
contiguous sub-view of the slice, a maximal run whose elements all satisfy
the predicate relative to the run's first element (the element right after
the run, if any, fails it); in particular grouping [0,2,1,3,4,5] by equal
parity yields exactly [0,2], [1,3], [4], [5], in that order. -/
theorem equivalence_classes_yields_maximal_runs :
    (∀ (β : Type) (v : List β) (p : β → β → Bool) (last : Nat)
       (run : List β) (nxt : Nat),
      eqcNext v p last = some (run, nxt) →
        ∃ hl : last < v.length,
          run = (v.drop last).take (nxt - last)
          ∧ last ≤ nxt ∧ nxt ≤ v.length
          ∧ (∀ j (hj : j < v.length), last ≤ j → j < nxt →
              p (v.get ⟨last, hl⟩) (v.get ⟨j, hj⟩) = true)
          ∧ (∀ hn : nxt < v.length, p (v.get ⟨last, hl⟩) (v.get ⟨nxt, hn⟩) = false))
    ∧ equivalence_classes ([0, 2, 1, 3, 4, 5] : List Nat) (fun l r => l % 2 == r % 2)
        = [[0, 2], [1, 3], [4], [5]] := by
  constructor
  · intro β v p last run nxt h
    by_cases hl : v.length ≤ last
    · rw [eqcNext_none v p last hl] at h
      cases h
    · have hlt : last < v.length := by omega
      rw [eqcNext_some v p last hlt] at h
      simp only [Option.some.injEq, Prod.mk.injEq] at h
      obtain ⟨hrun, hnxt⟩ := h
      subst hnxt
      refine ⟨hlt, hrun.symm, ?_, ?_, ?_, ?_⟩
      · exact eqcScan_ge v p _ last
      · exact eqcScan_le v p _ last (by omega)
      · intro j hj hlj hjlt
        exact eqcScan_all v p _ last j hj hlj hjlt
      · intro hn
        exact eqcScan_stop v p _ last hn (by omega)
  · have h0 : eqcNext ([0, 2, 1, 3, 4, 5] : List Nat) (fun l r => l % 2 == r % 2) 0
        = some ([0, 2], 2) := by
      simp [eqcNext, eqcScan]
    have h2 : eqcNext ([0, 2, 1, 3, 4, 5] : List Nat) (fun l r => l % 2 == r % 2) 2
        = some ([1, 3], 4) := by
      simp [eqcNext, eqcScan]
      decide
    have h4 : eqcNext ([0, 2, 1, 3, 4, 5] : List Nat) (fun l r => l % 2 == r % 2) 4
        = some ([4], 5) := by
      simp [eqcNext, eqcScan]
      decide
    have h5 : eqcNext ([0, 2, 1, 3, 4, 5] : List Nat) (fun l r => l % 2 == r % 2) 5
        = some ([5], 6) := by
      simp [eqcNext, eqcScan]
    have h6 : eqcNext ([0, 2, 1, 3, 4, 5] : List Nat) (fun l r => l % 2 == r % 2) 6
        = none := by
      simp [eqcNext]
    simp [equivalence_classes, eqcCollect, h0, h2, h4, h5, h6]

theorem equivalence_classes_yields_maximal_runs_witness :
    (0 : Nat) < ([0, 2, 1, 3] : List Nat).length
    ∧ ([0, 2] : List Nat) = (([0, 2, 1, 3] : List Nat).drop 0).take (2 - 0) := by
  have H := equivalence_classes_yields_maximal_runs.1 Nat [0, 2, 1, 3]
    (fun l r => l % 2 == r % 2) 0 [0, 2] 2 (by simp [eqcNext, eqcScan])
  obtain ⟨hl, h1, _⟩ := H
  exact ⟨hl, h1⟩

/-- Claim C10: for any slice and any predicate reflexive on its elements,
the grouping is finite, every yielded sub-slice is non-empty, and their
concatenation in order is exactly the input slice. -/
theorem equivalence_classes_partition_of_slice {α : Type} (v : List α)
    (p : α → α → Bool) (href : ∀ x ∈ v, p x x = true) :
    (equivalence_classes v p).flatten = v
    ∧ ∀ r ∈ equivalence_classes v p, r ≠ [] := by
  have H := eqcCollect_partition v p href (v.length + 1) 0 (by omega)
  refine ⟨?_, H.2⟩
  simpa using H.1

theorem equivalence_classes_partition_of_slice_witness :
    (equivalence_classes ([0, 2, 1, 3, 4, 5] : List Nat)
        (fun l r => l % 2 == r % 2)).flatten = [0, 2, 1, 3, 4, 5]
    ∧ ([] : List Nat) ∉ equivalence_classes ([0, 2, 1, 3, 4, 5] : List Nat)
        (fun l r => l % 2 == r % 2) := by
  have H := equivalence_classes_partition_of_slice [0, 2, 1, 3, 4, 5]
    (fun l r => l % 2 == r % 2) (by decide)
  exact ⟨H.1, fun hm => H.2 [] hm rfl⟩
